import Mathlib

/-!
Verification development for the Slack layout publishers
(`publishers/community/slack/slack_layout.py`).

Python strings are modelled as `List Char` (sequences of code points, with
`List.length` matching Python's `len`).  Python object identity is modelled by
tagging every mutable node (list / dict) of a value with a numeric id: a
freshly evaluated literal or a `deepcopy` allocates fresh ids from a counter,
while passing a reference around preserves ids.  Two values share a mutable
object exactly when they share an id.
-/

set_option maxRecDepth 10000

/-- Python `s.split('\n')`: splits a string on every newline; the empty string
yields `[""]` and a trailing newline yields a trailing empty line. -/
def splitLines : List Char → List (List Char)
  | [] => [[]]
  | c :: cs =>
    if c = '\n' then [] :: splitLines cs
    else
      match splitLines cs with
      | [] => [[c]]
      | l :: ls => (c :: l) :: ls

/-- Python `'\n'.join(lines)`. -/
def joinLines : List (List Char) → List Char
  | [] => []
  | [l] => l
  | l :: l' :: ls => l ++ '\n' :: joinLines (l' :: ls)

/-- One chunk produced by the document-chunker loop of
`AttachFullRecord.publish`: the accumulated text (`next_document` at flush
time) together with the `is_first` / `is_last` flags that the loop passes to
`make_attachment`. -/
structure Chunk where
  text : List Char
  isFirst : Bool
  isLast : Bool
  deriving DecidableEq, Repr

/-- The `while record_document_lines` loop of `AttachFullRecord.publish`.
Each iteration examines the next line; if `next_document` is non-empty and
appending the line would push `len(line) + len(next_document)` over the limit,
the accumulator is flushed as a (non-last) chunk; then the line is popped and
appended to the accumulator preceded by a newline.  After the loop, a
non-empty accumulator is flushed as the last chunk. -/
def chunkLoop (limit : Nat) : List (List Char) → List Char → Bool → List Chunk
  | [], nextDoc, isFirstDoc =>
    if nextDoc = [] then [] else [⟨nextDoc, isFirstDoc, true⟩]
  | line :: rest, nextDoc, isFirstDoc =>
    if nextDoc ≠ [] ∧ limit < line.length + nextDoc.length then
      ⟨nextDoc, isFirstDoc, false⟩ :: chunkLoop limit rest ('\n' :: line) false
    else
      chunkLoop limit rest (nextDoc ++ '\n' :: line) isFirstDoc

/-- The document chunker: the loop started on a list of lines with an empty
accumulator and `is_first_document = True`. -/
def chunkDocument (limit : Nat) (lines : List (List Char)) : List Chunk :=
  chunkLoop limit lines [] true

/-- Chunks of a whole document `D`: the loop is always run on
`record_document.split('\n')`. -/
def docChunks (limit : Nat) (D : List Char) : List Chunk :=
  chunkDocument limit (splitLines D)

/-- `_SLACK_MAXIMUM_ATTACHMENT_CHARACTER_LENGTH` of `AttachFullRecord`. -/
def SLACK_MAXIMUM_ATTACHMENT_CHARACTER_LENGTH : Nat := 4000

/-- `_LENGTH_PADDING` of `AttachFullRecord`. -/
def LENGTH_PADDING : Nat := 10

/-- `character_limit` as computed in `AttachFullRecord.publish`. -/
def character_limit : Nat :=
  SLACK_MAXIMUM_ATTACHMENT_CHARACTER_LENGTH - LENGTH_PADDING

mutual
/-- A Python value as stored in a publication or an alert record.  Mutable
nodes (lists and dicts) carry the id of the underlying Python object. -/
inductive Value where
  | vnull
  | vbool (b : Bool)
  | vint (n : Int)
  | vstr (s : List Char)
  | vlist (id : Nat) (xs : ValueList)
  | vdict (id : Nat) (kvs : ValueKVs)

/-- The elements of a Python list value. -/
inductive ValueList where
  | nil
  | cons (v : Value) (rest : ValueList)

/-- The entries of a Python dict value, in insertion order. -/
inductive ValueKVs where
  | nil
  | cons (k : String) (v : Value) (rest : ValueKVs)
end

/-- Converts a plain list of values into `ValueList`. -/
def ValueList.ofList : List Value → ValueList
  | [] => .nil
  | v :: vs => .cons v (ValueList.ofList vs)

/-- Converts a `ValueList` back into a plain list. -/
def ValueList.toList : ValueList → List Value
  | .nil => []
  | .cons v rest => v :: rest.toList

/-- Appends two `ValueList`s (Python list concatenation / repeated append). -/
def ValueList.append : ValueList → ValueList → ValueList
  | .nil, ys => ys
  | .cons v rest, ys => .cons v (rest.append ys)

/-- Builds a dict entry list from a plain list of pairs. -/
def ValueKVs.ofList : List (String × Value) → ValueKVs
  | [] => .nil
  | (k, v) :: rest => .cons k v (ValueKVs.ofList rest)

/-- The keys of a dict, in order. -/
def ValueKVs.keys : ValueKVs → List String
  | .nil => []
  | .cons k _ rest => k :: rest.keys

/-- Python `k in d`. -/
def ValueKVs.hasKey (kvs : ValueKVs) (k : String) : Bool :=
  match kvs with
  | .nil => false
  | .cons k' _ rest => if k' = k then true else rest.hasKey k

/-- Python `d[k]` (as an option). -/
def ValueKVs.lookup (kvs : ValueKVs) (k : String) : Option Value :=
  match kvs with
  | .nil => none
  | .cons k' v rest => if k' = k then some v else rest.lookup k

/-- Python `d[k] = v`: replaces the entry in place if the key exists,
otherwise appends a new entry. -/
def ValueKVs.set (kvs : ValueKVs) (k : String) (v : Value) : ValueKVs :=
  match kvs with
  | .nil => .cons k v .nil
  | .cons k' v' rest => if k' = k then .cons k' v rest else .cons k' v' (rest.set k v)

mutual
/-- Ids of all mutable (list / dict) nodes reachable from a value. -/
def Value.mutIds : Value → List Nat
  | .vnull | .vbool _ | .vint _ | .vstr _ => []
  | .vlist i xs => i :: xs.mutIds
  | .vdict i kvs => i :: kvs.mutIds

/-- Ids of all mutable nodes reachable from the elements of a list. -/
def ValueList.mutIds : ValueList → List Nat
  | .nil => []
  | .cons v rest => v.mutIds ++ rest.mutIds

/-- Ids of all mutable nodes reachable from the values of a dict. -/
def ValueKVs.mutIds : ValueKVs → List Nat
  | .nil => []
  | .cons _ v rest => v.mutIds ++ rest.mutIds
end

mutual
/-- `copy.deepcopy`: structurally copies a value, allocating a fresh id (from
the counter) for every mutable node; immutable leaves are shared. -/
def Value.deepcopy : Value → Nat → Value × Nat
  | .vnull, c => (.vnull, c)
  | .vbool b, c => (.vbool b, c)
  | .vint n, c => (.vint n, c)
  | .vstr s, c => (.vstr s, c)
  | .vlist _ xs, c =>
    let r := ValueList.deepcopy xs (c + 1)
    (.vlist c r.1, r.2)
  | .vdict _ kvs, c =>
    let r := ValueKVs.deepcopy kvs (c + 1)
    (.vdict c r.1, r.2)

/-- Deep copy of the elements of a list. -/
def ValueList.deepcopy : ValueList → Nat → ValueList × Nat
  | .nil, c => (.nil, c)
  | .cons v rest, c =>
    let r := Value.deepcopy v c
    let r' := ValueList.deepcopy rest r.2
    (.cons r.1 r'.1, r'.2)

/-- Deep copy of the entries of a dict. -/
def ValueKVs.deepcopy : ValueKVs → Nat → ValueKVs × Nat
  | .nil, c => (.nil, c)
  | .cons k v rest, c =>
    let r := Value.deepcopy v c
    let r' := ValueKVs.deepcopy rest r.2
    (.cons k r.1 r'.1, r'.2)
end

/-- Modelled from the Python standard library: `cgi.escape(s)` (with the
default `quote=False`) replaces `&` by `&amp;` first, then `<` by `&lt;` and
`>` by `&gt;`; since later replacements never touch the ampersands the first
one introduces, the sequential replacements coincide with this one-pass map. -/
def cgiEscape (s : List Char) : List Char :=
  s.flatMap fun c =>
    if c = '&' then "&amp;".toList
    else if c = '<' then "&lt;".toList
    else if c = '>' then "&gt;".toList
    else [c]

/-- Lower-case hexadecimal digit. -/
def hexDigit (n : Nat) : Char :=
  if n < 10 then Char.ofNat ('0'.toNat + n)
  else Char.ofNat ('a'.toNat + (n - 10))

/-- Four-digit lower-case hexadecimal rendering, as used by `\uXXXX` escapes. -/
def hex4 (n : Nat) : List Char :=
  [hexDigit (n / 4096 % 16), hexDigit (n / 256 % 16), hexDigit (n / 16 % 16),
   hexDigit (n % 16)]

/-- Modelled from the Python standard library: the body of a JSON string
literal produced by `json.dumps` with its default `ensure_ascii=True`:
quote, backslash and the usual control characters get two-character escapes,
other control characters and all non-ASCII code points become `\uXXXX`
escapes (with surrogate pairs above the BMP). -/
def jsonStringBody (s : List Char) : List Char :=
  s.flatMap fun c =>
    if c = '"' then ['\\', '"']
    else if c = '\\' then ['\\', '\\']
    else if c = '\n' then ['\\', 'n']
    else if c = '\t' then ['\\', 't']
    else if c = '\r' then ['\\', 'r']
    else if c.toNat = 8 then ['\\', 'b']
    else if c.toNat = 12 then ['\\', 'f']
    else if c.toNat < 32 then '\\' :: 'u' :: hex4 c.toNat
    else if c.toNat < 127 then [c]
    else if c.toNat < 65536 then '\\' :: 'u' :: hex4 c.toNat
    else
      '\\' :: 'u' :: hex4 (55296 + (c.toNat - 65536) / 1024) ++
        '\\' :: 'u' :: hex4 (56320 + (c.toNat - 65536) % 1024)

/-- A JSON string literal. -/
def jsonString (s : List Char) : List Char :=
  '"' :: jsonStringBody s ++ ['"']

/-- Indentation at a nesting level for `json.dumps(..., indent=2)`. -/
def jsonIndent (level : Nat) : List Char :=
  List.replicate (2 * level) ' '

/-- Code-point comparison of strings, as Python compares `str` values when
`sort_keys=True` sorts dict keys. -/
def charListLE : List Char → List Char → Bool
  | [], _ => true
  | _ :: _, [] => false
  | a :: as, b :: bs => if a = b then charListLE as bs else decide (a < b)

/-- Stable insertion into a key-sorted list of rendered dict entries. -/
def insertByKey (kv : String × List Char) :
    List (String × List Char) → List (String × List Char)
  | [] => [kv]
  | x :: xs =>
    if charListLE kv.1.toList x.1.toList then kv :: x :: xs
    else x :: insertByKey kv xs

/-- Stable insertion sort by key, matching Python's stable `sorted`. -/
def sortByKey : List (String × List Char) → List (String × List Char)
  | [] => []
  | x :: xs => insertByKey x (sortByKey xs)

/-- Joins already-rendered JSON items with `',\n' + indent`, the separator
layout of `json.dumps(..., indent=2, separators=(',', ': '))`. -/
def jsonJoinItems (ind : List Char) : List (List Char) → List Char
  | [] => []
  | [x] => x
  | x :: y :: rest => x ++ ',' :: '\n' :: ind ++ jsonJoinItems ind (y :: rest)

mutual
/-- Modelled from the Python standard library:
`json.dumps(v, indent=2, sort_keys=True, separators=(',', ': '))` rendered at
a given nesting level.  Empty containers render as `[]` / `{}`; non-empty
containers put every item on its own indented line; dict keys are emitted in
sorted order (rendering an entry is order-independent, so sorting the
rendered entries coincides with rendering the sorted dict). -/
def Value.jsonDumps : Value → Nat → List Char
  | .vnull, _ => "null".toList
  | .vbool true, _ => "true".toList
  | .vbool false, _ => "false".toList
  | .vint n, _ => (toString n).toList
  | .vstr s, _ => jsonString s
  | .vlist _ xs, level =>
    match xs with
    | .nil => "[]".toList
    | .cons _ _ =>
      '[' :: '\n' :: jsonIndent (level + 1) ++
        jsonJoinItems (jsonIndent (level + 1)) (ValueList.jsonDumpsItems xs (level + 1)) ++
        '\n' :: jsonIndent level ++ [']']
  | .vdict _ kvs, level =>
    match kvs with
    | .nil => "{}".toList
    | .cons _ _ _ =>
      '{' :: '\n' :: jsonIndent (level + 1) ++
        jsonJoinItems (jsonIndent (level + 1))
          ((sortByKey (ValueKVs.jsonDumpsEntries kvs (level + 1))).map
            (fun kv => jsonString kv.1.toList ++ ':' :: ' ' :: kv.2)) ++
        '\n' :: jsonIndent level ++ ['}']

/-- Renders each list element at the given level, in order. -/
def ValueList.jsonDumpsItems : ValueList → Nat → List (List Char)
  | .nil, _ => []
  | .cons v rest, level => Value.jsonDumps v level :: ValueList.jsonDumpsItems rest level

/-- Renders each dict value at the given level, keeping the key alongside. -/
def ValueKVs.jsonDumpsEntries : ValueKVs → Nat → List (String × List Char)
  | .nil, _ => []
  | .cons k v rest, level =>
    (k, Value.jsonDumps v level) :: ValueKVs.jsonDumpsEntries rest level
end

/-- Modelled from the Python standard library: `urllib.quote_plus` — keeps
alphanumerics and `_.-`, turns spaces into `+`, and percent-encodes the other
code points below 128 (non-ASCII input does not occur in the URLs built
here). -/
def quotePlus (s : List Char) : List Char :=
  s.flatMap fun c =>
    if c.isAlphanum ∨ c = '_' ∨ c = '.' ∨ c = '-' then [c]
    else if c = ' ' then ['+']
    else ['%', hexDigit (c.toNat / 16 % 16) |>.toUpper, (hexDigit (c.toNat % 16)).toUpper]

/-- Modelled from the Python standard library:
`urllib.urlencode({'q': value})` as used by `Summary._title_url`. -/
def urlencodeQ (value : List Char) : List Char :=
  'q' :: '=' :: quotePlus value

/-- Colour constant `RAUSCH`. -/
def RAUSCH : List Char := "#ff5a5f".toList

/-- Colour constant `BABU`. -/
def BABU : List Char := "#00d1c1".toList

/-- Colour constant `LIMA`. -/
def LIMA : List Char := "#8ce071".toList

/-- Colour constant `HACKBERRY`. -/
def HACKBERRY : List Char := "#7b0051".toList

/-- The alert fields read by the four publishers.  The rule description is
modelled post-parsing: `author`, `description` and `presentationFields` are
the `author` / `description` / `fields` components of
`RuleDescriptionParser.present(alert.rule_description)`, which is an external
collaborator of this module. -/
structure Alert where
  rule_name : List Char
  author : List Char
  description : List Char
  presentationFields : List (List Char × List Char)
  created : Option Int
  record : Value
  source_service : List Char
  source_entity : List Char
  alert_id : List Char

/-- A publication: a Python dict, with the id of the dict object itself. -/
structure Publication where
  id : Nat
  fields : ValueKVs

/-- A publication viewed as a plain value. -/
def Publication.toValue (p : Publication) : Value :=
  .vdict p.id p.fields

/-- All mutable-object ids reachable from a publication. -/
def Publication.mutIds (p : Publication) : List Nat :=
  p.toValue.mutIds

/-- `copy.deepcopy` of a publication: a fresh dict id and deep-copied
entries. -/
def Publication.deepcopy (p : Publication) (ctr : Nat) : Publication × Nat :=
  let r := ValueKVs.deepcopy p.fields (ctr + 1)
  ({ id := ctr, fields := r.1 }, r.2)

/-- The idiom `new_publication['slack.attachments'] =
new_publication.get('slack.attachments', [])`: when the key is present the
dict is unchanged (the same list object is written back); otherwise a fresh
empty list is stored. -/
def Publication.getOrInitAttachments (p : Publication) (ctr : Nat) :
    Publication × Nat :=
  if p.fields.hasKey "slack.attachments" then (p, ctr)
  else ({ p with fields := p.fields.set "slack.attachments" (.vlist ctr .nil) }, ctr + 1)

/-- `new_publication['slack.attachments'].append(...)` for each given
attachment: the list object keeps its id, the new elements go at the end.
(When the stored value is not a list Python would raise; that situation is
modelled as leaving the publication unchanged and never arises in the
publishers, which always store a list first.) -/
def Publication.appendAttachments (p : Publication) (atts : List Value) :
    Publication :=
  match p.fields.lookup "slack.attachments" with
  | some (.vlist i xs) =>
    { p with fields := p.fields.set "slack.attachments" (.vlist i (xs.append (ValueList.ofList atts))) }
  | _ => p

/-- The per-field dicts `{'title': key, 'value': rule_presentation['fields'][key]}`
built by the `map(lambda ...)` in both `Summary.publish` and
`AttachRuleInfo.publish`; each dict is a fresh object. -/
def fieldAttachmentDicts : List (List Char × List Char) → Nat → ValueList × Nat
  | [], c => (.nil, c)
  | (k, v) :: rest, c =>
    let d := Value.vdict c (.cons "title" (.vstr k) (.cons "value" (.vstr v) .nil))
    let r := fieldAttachmentDicts rest (c + 1)
    (.cons d r.1, r.2)

/-- `Summary._GITHUB_REPO_URL`. -/
def Summary.GITHUB_REPO_URL : List Char := "https://github.com/airbnb/streamalert".toList

/-- `Summary._SEARCH_PATH`. -/
def Summary.SEARCH_PATH : List Char := "/search".toList

/-- `Summary._RULES_PATH`. -/
def Summary.RULES_PATH : List Char := "/rules".toList

/-- `Summary._color`. -/
def Summary.color : List Char := RAUSCH

/-- `Summary._author_url`: always the empty string. -/
def Summary.author_url (_author : List Char) : List Char := []

/-- `Summary._author_icon`: always the empty string. -/
def Summary.author_icon (_author : List Char) : List Char := []

/-- `Summary._title_url`: the GitHub search URL
`'{}{}?{}'.format(repo, search, urlencode({'q': '{} path:{}'.format(rule_name, rules_path)}))`. -/
def Summary.title_url (rule_name : List Char) : List Char :=
  Summary.GITHUB_REPO_URL ++ Summary.SEARCH_PATH ++
    '?' :: urlencodeQ (rule_name ++ " path:".toList ++ Summary.RULES_PATH)

/-- The single attachment built by `Summary.publish`, with the ids of the
objects it allocates (field dicts, fields list, `mrkdwn_in` list, the
attachment dict itself). -/
def Summary.attachment (a : Alert) (ctr : Nat) : Value × Nat :=
  let fd := fieldAttachmentDicts a.presentationFields ctr
  let fieldsList := Value.vlist fd.2 fd.1
  let mrk := Value.vlist (fd.2 + 1) .nil
  (.vdict (fd.2 + 2) (.ofList [
    ("fallback", .vstr ("Rule triggered: ".toList ++ a.rule_name)),
    ("color", .vstr Summary.color),
    ("author_name", .vstr a.author),
    ("author_link", .vstr (Summary.author_url a.author)),
    ("author_icon", .vstr (Summary.author_icon a.author)),
    ("title", .vstr a.rule_name),
    ("title_link", .vstr (Summary.title_url a.rule_name)),
    ("text", .vstr (cgiEscape a.description)),
    ("fields", fieldsList),
    ("image_url", .vstr []),
    ("thumb_url", .vstr []),
    ("footer", .vstr []),
    ("footer_icon", .vstr []),
    ("ts", match a.created with | some t => .vint t | none => .vstr []),
    ("mrkdwn_in", mrk)]), fd.2 + 3)

/-- `Summary.publish`: returns a brand-new publication dict holding
`slack.text`, one-element `slack.attachments`, and the input publication
itself (the same object, not a copy) under `_previous_publication`. -/
def Summary.publish (a : Alert) (p : Publication) (ctr : Nat) :
    Publication × Nat :=
  let att := Summary.attachment a ctr
  let attList := Value.vlist att.2 (.cons att.1 .nil)
  ({ id := att.2 + 1, fields := .ofList [
      ("slack.text", .vstr "Rule triggered".toList),
      ("slack.attachments", attList),
      ("_previous_publication", p.toValue)] }, att.2 + 2)

/-- `AttachRuleInfo._color`. -/
def AttachRuleInfo.color : List Char := LIMA

/-- The attachment appended by `AttachRuleInfo.publish`: only `color` and the
rule-description `fields`. -/
def AttachRuleInfo.attachment (a : Alert) (ctr : Nat) : Value × Nat :=
  let fd := fieldAttachmentDicts a.presentationFields ctr
  let fieldsList := Value.vlist fd.2 fd.1
  (.vdict (fd.2 + 1) (.ofList [
    ("color", .vstr AttachRuleInfo.color),
    ("fields", fieldsList)]), fd.2 + 2)

/-- `AttachRuleInfo.publish`: deep-copies the publication, defaults
`slack.attachments`, and appends the rule-info attachment. -/
def AttachRuleInfo.publish (a : Alert) (p : Publication) (ctr : Nat) :
    Publication × Nat :=
  let dc := Publication.deepcopy p ctr
  let gi := Publication.getOrInitAttachments dc.1 dc.2
  let att := AttachRuleInfo.attachment a gi.2
  (gi.1.appendAttachments [att.1], att.2)

/-- `AttachPublication._color`. -/
def AttachPublication.color : List Char := BABU

/-- The attachment appended by `AttachPublication.publish`: a pretty-printed,
escaped dump of the previous publication wrapped in a code block. -/
def AttachPublication.attachment (prev : Value) (ctr : Nat) : Value × Nat :=
  let block := "```\n".toList ++ prev.jsonDumps 0 ++ "\n```".toList
  let mrk := Value.vlist ctr (.cons (.vstr "text".toList) .nil)
  (.vdict (ctr + 1) (.ofList [
    ("color", .vstr AttachPublication.color),
    ("title", .vstr "Alert Data:".toList),
    ("text", .vstr (cgiEscape block)),
    ("mrkdwn_in", mrk)]), ctr + 2)

/-- `AttachPublication.publish`: if either `_previous_publication` or
`slack.attachments` is missing the input publication itself is returned
unchanged; otherwise a deep copy of the publication gets the dump of
`publication['_previous_publication']` appended as an attachment. -/
def AttachPublication.publish (_a : Alert) (p : Publication) (ctr : Nat) :
    Publication × Nat :=
  if p.fields.hasKey "_previous_publication" = false ∨
      p.fields.hasKey "slack.attachments" = false then (p, ctr)
  else
    let dc := Publication.deepcopy p ctr
    let prev := (p.fields.lookup "_previous_publication").getD .vnull
    let att := AttachPublication.attachment prev dc.2
    (dc.1.appendAttachments [att.1], att.2)

/-- `AttachFullRecord._color`. -/
def AttachFullRecord.color : List Char := HACKBERRY

/-- `AttachFullRecord._source_service_url`. -/
def AttachFullRecord.source_service_url (svc : List Char) : List Char :=
  "https://console.aws.amazon.com/".toList ++ svc ++ "/home".toList

/-- `AttachFullRecord._footer_icon_from_service`: always the empty string. -/
def AttachFullRecord.footer_icon_from_service (_svc : List Char) : List Char := []

/-- The footer put on the last attachment.  In the source, when the service
URL were falsy the string `'via {}'.format(...)` would be built but discarded
(a bare expression statement), leaving the footer empty; the URL is in fact
never empty. -/
def AttachFullRecord.footerText (a : Alert) : List Char :=
  let url := AttachFullRecord.source_service_url a.source_service
  if url ≠ [] then
    "via <".toList ++ url ++ '|' :: a.source_service ++ ['>']
  else []

/-- `make_attachment` inside `AttachFullRecord.publish`: wraps one chunk of
the record document in a code block, putting author/title only on a first
chunk and footer plus the `Alert Id` field only on a last chunk. -/
def AttachFullRecord.make_attachment (a : Alert) (document : List Char)
    (is_first : Bool) (is_last : Bool) (ctr : Nat) : Value × Nat :=
  let footer := if is_last then AttachFullRecord.footerText a else []
  let fr : Value × Nat :=
    if is_last then
      (.vlist (ctr + 1) (.cons (.vdict ctr (.cons "title" (.vstr "Alert Id".toList)
        (.cons "value" (.vstr a.alert_id) .nil))) .nil), ctr + 2)
    else (.vlist ctr .nil, ctr + 1)
  let mrk := Value.vlist fr.2 (.cons (.vstr "text".toList) .nil)
  (.vdict (fr.2 + 1) (.ofList [
    ("color", .vstr AttachFullRecord.color),
    ("author", .vstr (if is_first then a.source_entity else [])),
    ("title", .vstr (if is_first then "Record".toList else [])),
    ("text", .vstr ("```\n".toList ++ document ++ "\n```".toList)),
    ("fields", fr.1),
    ("footer", .vstr footer),
    ("footer_icon", .vstr (AttachFullRecord.footer_icon_from_service a.source_service)),
    ("mrkdwn_in", mrk)]), fr.2 + 2)

/-- The serialized, escaped record document:
`cgi.escape(json.dumps(alert.record, indent=2, sort_keys=True, separators=(',', ': ')))`. -/
def AttachFullRecord.recordDocument (a : Alert) : List Char :=
  cgiEscape (a.record.jsonDumps 0)

/-- The chunks the document-chunker loop produces for an alert's record. -/
def AttachFullRecord.chunks (a : Alert) : List Chunk :=
  docChunks character_limit (AttachFullRecord.recordDocument a)

/-- One attachment per chunk, in order, threading the allocation counter. -/
def AttachFullRecord.attachmentsOfChunks (a : Alert) :
    List Chunk → Nat → List Value × Nat
  | [], c => ([], c)
  | ch :: rest, c =>
    let r := AttachFullRecord.make_attachment a ch.text ch.isFirst ch.isLast c
    let r' := AttachFullRecord.attachmentsOfChunks a rest r.2
    (r.1 :: r'.1, r'.2)

/-- The attachments the publish loop generates for an alert, one per chunk,
starting from a given allocation counter. -/
def AttachFullRecord.newAttachments (a : Alert) (ctr : Nat) : List Value :=
  (AttachFullRecord.attachmentsOfChunks a (AttachFullRecord.chunks a) ctr).1

/-- `AttachFullRecord.publish`: deep-copies the publication, defaults
`slack.attachments`, chunks the serialized record and appends one attachment
per chunk. -/
def AttachFullRecord.publish (a : Alert) (p : Publication) (ctr : Nat) :
    Publication × Nat :=
  let dc := Publication.deepcopy p ctr
  let gi := Publication.getOrInitAttachments dc.1 dc.2
  let na := AttachFullRecord.attachmentsOfChunks a (AttachFullRecord.chunks a) gi.2
  (gi.1.appendAttachments na.1, na.2)

/-- The chunk bodies laid end to end: every line is preceded by exactly one
separator newline inserted by the chunker. -/
def linesToDoc (ls : List (List Char)) : List Char :=
  ls.flatMap fun l => '\n' :: l

/-- Whether a value is Python's `None`. -/
def Value.isNull : Value → Bool
  | .vnull => true
  | _ => false

/-- The keys of a dict value (empty for non-dicts). -/
def Value.topKeys : Value → List String
  | .vdict _ kvs => kvs.keys
  | _ => []

/-- The values of a dict's entries, in order. -/
def ValueKVs.values : ValueKVs → List Value
  | .nil => []
  | .cons _ v rest => v :: rest.values

/-- The values stored in a dict value (empty for non-dicts). -/
def Value.topValues : Value → List Value
  | .vdict _ kvs => kvs.values
  | _ => []

/-- The string stored under a key of an attachment dict, if any. -/
def valueLookupStr (k : String) : Value → Option (List Char)
  | .vdict _ kvs =>
    match kvs.lookup k with
    | some (.vstr s) => some s
    | _ => none
  | _ => none

/-- The `{title, value}` string pairs of a list of field dicts. -/
def attFieldTitleValues : ValueList → List (List Char × List Char)
  | .nil => []
  | .cons v rest =>
    (match v with
     | .vdict _ kvs =>
       match kvs.lookup "title", kvs.lookup "value" with
       | some (.vstr t), some (.vstr w) => [(t, w)]
       | _, _ => []
     | _ => []) ++ attFieldTitleValues rest

/-- The `{title, value}` string pairs under the `fields` key of an
attachment. -/
def attFieldPairs : Value → List (List Char × List Char)
  | .vdict _ kvs =>
    match kvs.lookup "fields" with
    | some (.vlist _ xs) => attFieldTitleValues xs
    | _ => []
  | _ => []

/-- The attachments currently stored under `slack.attachments`. -/
def Publication.attachmentValues (p : Publication) : List Value :=
  match p.fields.lookup "slack.attachments" with
  | some (.vlist _ xs) => xs.toList
  | _ => []

/-- How many attachments a publication holds. -/
def Publication.attachmentCount (p : Publication) : Nat :=
  p.attachmentValues.length

/-- Modelled from the spec: the recognized Attachment schema keys of the data
model (colour, title and title link, author name/link/icon, body text,
footer and footer icon, field pairs, rich-text flags, timestamp). -/
def recognizedKeys : List String :=
  ["color", "title", "title_link", "author_name", "author_link", "author_icon",
   "text", "footer", "footer_icon", "fields", "mrkdwn_in", "ts"]

/-- A concrete alert whose raw record is the empty mapping `{}`. -/
def sampleAlert : Alert :=
  ⟨"test_rule".toList, "author".toList, "desc".toList, [], none,
   .vdict 100 .nil, "s3".toList, "bucket".toList, "42".toList⟩

/-- A concrete empty publication dict (object id 0). -/
def samplePubEmpty : Publication := ⟨0, .nil⟩

/-- A concrete publication carrying both `_previous_publication` and
`slack.attachments` (dict id 0, attachment-list id 1). -/
def samplePubBoth : Publication :=
  ⟨0, .cons "_previous_publication" (.vstr [])
      (.cons "slack.attachments" (.vlist 1 .nil) .nil)⟩

/-- A concrete publication that already contains the key `slack.text`. -/
def samplePubSlackText : Publication :=
  ⟨0, .cons "slack.text" (.vstr []) .nil⟩

theorem splitLines_ne_nil : ∀ D : List Char, splitLines D ≠ []
  | [] => by simp [splitLines]
  | c :: cs => by
    by_cases hc : c = '\n'
    · simp [splitLines, hc]
    · cases h : splitLines cs with
      | nil => simp [splitLines, hc, h]
      | cons l ls => simp [splitLines, hc, h]

theorem splitLines_no_newline : ∀ D : List Char, ∀ l ∈ splitLines D, '\n' ∉ l
  | [] => by simp [splitLines]
  | c :: cs => by
    intro l hl
    by_cases hc : c = '\n'
    · rw [splitLines, if_pos hc] at hl
      rcases List.mem_cons.mp hl with hl | hl
      · simp [hl]
      · exact splitLines_no_newline cs l hl
    · rw [splitLines, if_neg hc] at hl
      cases h : splitLines cs with
      | nil => exact absurd h (splitLines_ne_nil cs)
      | cons l0 ls =>
        rw [h] at hl
        rcases List.mem_cons.mp hl with hl | hl
        · subst hl
          intro hmem
          rcases List.mem_cons.mp hmem with h1 | h1
          · exact hc h1.symm
          · exact splitLines_no_newline cs l0 (by rw [h]; exact List.mem_cons_self l0 ls) h1
        · exact splitLines_no_newline cs l (by rw [h]; exact List.mem_cons_of_mem l0 hl)

theorem splitLines_append : ∀ (a x h : List Char) (t : List (List Char)),
    '\n' ∉ a → splitLines x = h :: t → splitLines (a ++ x) = (a ++ h) :: t
  | [], x, h, t, _, hx => by simpa using hx
  | c :: a', x, h, t, ha, hx => by
    have hc : ¬ c = '\n' := fun hcc => ha (by simp [hcc])
    have ha' : '\n' ∉ a' := fun hmem => ha (List.mem_cons_of_mem c hmem)
    have ih := splitLines_append a' x h t ha' hx
    rw [List.cons_append, splitLines, if_neg hc, ih]
    rfl

theorem joinLines_splitLines : ∀ D : List Char, joinLines (splitLines D) = D
  | [] => by simp [splitLines, joinLines]
  | c :: cs => by
    by_cases hc : c = '\n'
    · rw [splitLines, if_pos hc]
      cases h : splitLines cs with
      | nil => exact absurd h (splitLines_ne_nil cs)
      | cons l0 ls =>
        have ih := joinLines_splitLines cs
        rw [h] at ih
        rw [joinLines, List.nil_append, ih, hc]
    · rw [splitLines, if_neg hc]
      cases h : splitLines cs with
      | nil => exact absurd h (splitLines_ne_nil cs)
      | cons l0 ls =>
        have ih := joinLines_splitLines cs
        rw [h] at ih
        cases ls with
        | nil => rw [joinLines]; rw [joinLines] at ih; rw [ih]
        | cons l1 ls' =>
          rw [joinLines] at ih ⊢
          rw [List.cons_append, ih]

theorem splitLines_linesToDoc : ∀ acc : List (List Char),
    (∀ l ∈ acc, '\n' ∉ l) → splitLines (linesToDoc acc) = [] :: acc
  | [], _ => by simp [linesToDoc, splitLines]
  | a :: as, h => by
    have ha : '\n' ∉ a := h a (List.mem_cons_self a as)
    have has : ∀ l ∈ as, '\n' ∉ l := fun l hl => h l (List.mem_cons_of_mem a hl)
    have ih := splitLines_linesToDoc as has
    show splitLines ('\n' :: (a ++ linesToDoc as)) = [] :: a :: as
    rw [splitLines, if_pos rfl, splitLines_append a (linesToDoc as) [] as ha ih]
    simp

theorem linesToDoc_append (xs ys : List (List Char)) :
    linesToDoc (xs ++ ys) = linesToDoc xs ++ linesToDoc ys := by
  simp [linesToDoc]

theorem linesToDoc_eq_nil_iff (xs : List (List Char)) :
    linesToDoc xs = [] ↔ xs = [] := by
  cases xs with
  | nil => simp [linesToDoc]
  | cons a as => simp [linesToDoc]

theorem chunkLoop_ne_nil (limit : Nat) :
    ∀ (ls : List (List Char)) (doc : List Char) (f : Bool),
      doc ≠ [] → chunkLoop limit ls doc f ≠ []
  | [], doc, f, hdoc => by simp [chunkLoop, hdoc]
  | line :: rest, doc, f, hdoc => by
    rw [chunkLoop]
    split
    · simp
    · exact chunkLoop_ne_nil limit rest (doc ++ '\n' :: line) f (by simp)

theorem chunkLoop_flatMap_lines (limit : Nat) :
    ∀ (ls : List (List Char)) (acc : List (List Char)) (f : Bool),
      (∀ l ∈ ls, '\n' ∉ l) → (∀ l ∈ acc, '\n' ∉ l) →
      ((chunkLoop limit ls (linesToDoc acc) f).flatMap
          fun c => (splitLines c.text).drop 1) = acc ++ ls
  | [], acc, f, _, hacc => by
    rw [chunkLoop]
    by_cases h : acc = []
    · subst h
      simp [linesToDoc]
    · rw [if_neg ((linesToDoc_eq_nil_iff acc).not.mpr h)]
      simp [splitLines_linesToDoc acc hacc]
  | line :: rest, acc, f, hls, hacc => by
    have hline : '\n' ∉ line := hls line (List.mem_cons_self line rest)
    have hrest : ∀ l ∈ rest, '\n' ∉ l := fun l hl => hls l (List.mem_cons_of_mem line hl)
    rw [chunkLoop]
    split
    · rw [List.flatMap_cons]
      have h1 : (splitLines (linesToDoc acc)).drop 1 = acc := by
        rw [splitLines_linesToDoc acc hacc]; rfl
      have h2 : ('\n' :: line) = linesToDoc [line] := by simp [linesToDoc]
      rw [h1, h2, chunkLoop_flatMap_lines limit rest [line] false hrest
        (by intro l hl; rcases List.mem_singleton.mp hl with rfl; exact hline)]
      simp
    · have h2 : linesToDoc acc ++ '\n' :: line = linesToDoc (acc ++ [line]) := by
        rw [linesToDoc_append]; simp [linesToDoc]
      rw [h2, chunkLoop_flatMap_lines limit rest (acc ++ [line]) f hrest
        (by intro l hl
            rcases List.mem_append.mp hl with h | h
            · exact hacc l h
            · rcases List.mem_singleton.mp h with rfl; exact hline)]
      simp

theorem chunkLoop_length_bound (limit : Nat) (L : List (List Char)) :
    ∀ (ls : List (List Char)) (doc : List Char) (f : Bool),
      (doc.length ≤ limit + 1 ∨ ∃ l ∈ L, doc = '\n' :: l ∧ limit < l.length) →
      (∀ l ∈ ls, l ∈ L) →
      ∀ c ∈ chunkLoop limit ls doc f,
        c.text.length ≤ limit + 1 ∨ ∃ l ∈ L, c.text = '\n' :: l ∧ limit < l.length
  | [], doc, f, hdoc, _ => by
    intro c hc
    rw [chunkLoop] at hc
    split at hc
    · exact absurd hc (List.not_mem_nil c)
    · rcases List.mem_singleton.mp hc with rfl
      exact hdoc
  | line :: rest, doc, f, hdoc, hls => by
    intro c hc
    have hlineL : line ∈ L := hls line (List.mem_cons_self line rest)
    have hrest : ∀ l ∈ rest, l ∈ L := fun l hl => hls l (List.mem_cons_of_mem line hl)
    have hnew : ('\n' :: line).length ≤ limit + 1 ∨
        ∃ l ∈ L, ('\n' :: line : List Char) = '\n' :: l ∧ limit < l.length := by
      by_cases hlen : line.length ≤ limit
      · left; simpa using hlen
      · right; exact ⟨line, hlineL, rfl, Nat.lt_of_not_le hlen⟩
    rw [chunkLoop] at hc
    split at hc
    · rcases List.mem_cons.mp hc with rfl | hc
      · exact hdoc
      · exact chunkLoop_length_bound limit L rest ('\n' :: line) false hnew hrest c hc
    · rename_i hcond
      by_cases hd : doc = []
      · subst hd
        exact chunkLoop_length_bound limit L rest ('\n' :: line) f hnew hrest c hc
      · have hlen : line.length + doc.length ≤ limit := by
          rcases Decidable.not_and_iff_or_not.mp hcond with h | h
          · exact absurd hd (by simpa using h)
          · exact Nat.le_of_not_lt h
        have : (doc ++ '\n' :: line).length ≤ limit + 1 := by
          simp only [List.length_append, List.length_cons]
          omega
        exact chunkLoop_length_bound limit L rest (doc ++ '\n' :: line) f
          (Or.inl this) hrest c hc

theorem chunkLoop_map_isLast (limit : Nat) :
    ∀ (ls : List (List Char)) (doc : List Char) (f : Bool), doc ≠ [] →
      (chunkLoop limit ls doc f).map Chunk.isLast =
        List.replicate ((chunkLoop limit ls doc f).length - 1) false ++ [true]
  | [], doc, f, hdoc => by
    rw [chunkLoop, if_neg hdoc]
    rfl
  | line :: rest, doc, f, hdoc => by
    rw [chunkLoop]
    split
    · have hne : chunkLoop limit rest ('\n' :: line) false ≠ [] :=
        chunkLoop_ne_nil limit rest ('\n' :: line) false (by simp)
      have ih := chunkLoop_map_isLast limit rest ('\n' :: line) false (by simp)
      rw [List.map_cons, ih]
      have hpos : 0 < (chunkLoop limit rest ('\n' :: line) false).length :=
        List.length_pos.mpr hne
      rw [List.length_cons]
      have h1 : (chunkLoop limit rest ('\n' :: line) false).length - 1 + 1 =
          (chunkLoop limit rest ('\n' :: line) false).length := Nat.succ_pred_eq_of_pos hpos
      calc Chunk.isLast ⟨doc, f, false⟩ ::
            (List.replicate ((chunkLoop limit rest ('\n' :: line) false).length - 1) false ++ [true])
          = List.replicate ((chunkLoop limit rest ('\n' :: line) false).length - 1 + 1) false ++ [true] := by
            rw [List.replicate_succ]; rfl
        _ = List.replicate ((chunkLoop limit rest ('\n' :: line) false).length + 1 - 1) false ++ [true] := by
            rw [h1, Nat.add_sub_cancel]
    · exact chunkLoop_map_isLast limit rest (doc ++ '\n' :: line) f (by simp)

theorem chunkLoop_map_isFirst (limit : Nat) :
    ∀ (ls : List (List Char)) (doc : List Char) (f : Bool), doc ≠ [] →
      (chunkLoop limit ls doc f).map Chunk.isFirst =
        f :: List.replicate ((chunkLoop limit ls doc f).length - 1) false
  | [], doc, f, hdoc => by
    rw [chunkLoop, if_neg hdoc]
    rfl
  | line :: rest, doc, f, hdoc => by
    rw [chunkLoop]
    split
    · have hne : chunkLoop limit rest ('\n' :: line) false ≠ [] :=
        chunkLoop_ne_nil limit rest ('\n' :: line) false (by simp)
      have ih := chunkLoop_map_isFirst limit rest ('\n' :: line) false (by simp)
      rw [List.map_cons, ih]
      have hpos : 0 < (chunkLoop limit rest ('\n' :: line) false).length :=
        List.length_pos.mpr hne
      have h1 : (chunkLoop limit rest ('\n' :: line) false).length - 1 + 1 =
          (chunkLoop limit rest ('\n' :: line) false).length := Nat.succ_pred_eq_of_pos hpos
      rw [List.length_cons]
      show (⟨doc, f, false⟩ : Chunk).isFirst ::
          false :: List.replicate ((chunkLoop limit rest ('\n' :: line) false).length - 1) false =
          f :: List.replicate ((chunkLoop limit rest ('\n' :: line) false).length + 1 - 1) false
      rw [← List.replicate_succ, h1]
      rfl
    · exact chunkLoop_map_isFirst limit rest (doc ++ '\n' :: line) f (by simp)

theorem docChunks_entry (limit : Nat) (D : List Char) :
    ∃ (h : List Char) (t : List (List Char)), splitLines D = h :: t ∧
      docChunks limit D = chunkLoop limit t ('\n' :: h) true := by
  cases hsp : splitLines D with
  | nil => exact absurd hsp (splitLines_ne_nil D)
  | cons h t =>
    refine ⟨h, t, rfl, ?_⟩
    rw [docChunks, chunkDocument, hsp, chunkLoop]
    rw [if_neg (by simp)]
    rfl

theorem docChunks_ne_nil (limit : Nat) (D : List Char) : docChunks limit D ≠ [] := by
  obtain ⟨h, t, _, heq⟩ := docChunks_entry limit D
  rw [heq]
  exact chunkLoop_ne_nil limit t ('\n' :: h) true (by simp)

theorem docChunks_map_isFirst (limit : Nat) (D : List Char) :
    (docChunks limit D).map Chunk.isFirst =
      true :: List.replicate ((docChunks limit D).length - 1) false := by
  obtain ⟨h, t, _, heq⟩ := docChunks_entry limit D
  rw [heq]
  exact chunkLoop_map_isFirst limit t ('\n' :: h) true (by simp)

theorem docChunks_map_isLast (limit : Nat) (D : List Char) :
    (docChunks limit D).map Chunk.isLast =
      List.replicate ((docChunks limit D).length - 1) false ++ [true] := by
  obtain ⟨h, t, _, heq⟩ := docChunks_entry limit D
  rw [heq]
  exact chunkLoop_map_isLast limit t ('\n' :: h) true (by simp)

theorem docChunks_get_isFirst (limit : Nat) (D : List Char) (i : Nat)
    (hi : i < (docChunks limit D).length) :
    ((docChunks limit D).get ⟨i, hi⟩).isFirst = decide (i = 0) := by
  have hi' : i < ((docChunks limit D).map Chunk.isFirst).length := by simpa using hi
  have h1 : ((docChunks limit D).map Chunk.isFirst).get ⟨i, hi'⟩ =
      ((docChunks limit D).get ⟨i, hi⟩).isFirst := by
    simp [List.get_eq_getElem]
  rw [← h1, List.get_of_eq (docChunks_map_isFirst limit D) ⟨i, hi'⟩]
  cases i with
  | zero => rfl
  | succ j =>
    have hj : j < (docChunks limit D).length - 1 := by omega
    simp [List.get_eq_getElem]

theorem docChunks_get_isLast (limit : Nat) (D : List Char) (i : Nat)
    (hi : i < (docChunks limit D).length) :
    ((docChunks limit D).get ⟨i, hi⟩).isLast =
      decide (i = (docChunks limit D).length - 1) := by
  have hi' : i < ((docChunks limit D).map Chunk.isLast).length := by simpa using hi
  have h1 : ((docChunks limit D).map Chunk.isLast).get ⟨i, hi'⟩ =
      ((docChunks limit D).get ⟨i, hi⟩).isLast := by
    simp [List.get_eq_getElem]
  rw [← h1, List.get_of_eq (docChunks_map_isLast limit D) ⟨i, hi'⟩]
  by_cases hlt : i < (docChunks limit D).length - 1
  · rw [List.get_eq_getElem, List.getElem_append_left (by simpa using hlt)]
    simp
    omega
  · have hieq : i = (docChunks limit D).length - 1 := by omega
    rw [List.get_eq_getElem, List.getElem_append_right (by simp; omega)]
    simp [hieq]

theorem countP_eq_count_true_map {α : Type} (g : α → Bool) :
    ∀ l : List α, l.countP g = (l.map g).count true
  | [] => rfl
  | a :: l => by
    rw [List.map_cons, List.countP_cons, List.count_cons, countP_eq_count_true_map g l]
    cases h : g a <;> simp

/-- Claim C1: for every document `D` and budget `B > 0`, the bodies of the
chunks produced by the Document Chunker loop in `AttachFullRecord.publish`,
after stripping the one separator newline the chunker inserts before each
line, list exactly the original lines of `D` in order — no line is reordered,
merged out of order, dropped, or truncated mid-line — and joining them with
newlines reconstructs `D` exactly. -/
theorem C1_chunker_reconstructs_document (D : List Char) (B : Nat) (hB : 0 < B) :
    ((docChunks B D).flatMap fun c => (splitLines c.text).drop 1) = splitLines D ∧
    joinLines ((docChunks B D).flatMap fun c => (splitLines c.text).drop 1) = D := by
  have h1 : ((docChunks B D).flatMap fun c => (splitLines c.text).drop 1) = splitLines D := by
    have h := chunkLoop_flatMap_lines B (splitLines D) [] true
      (splitLines_no_newline D) (by simp)
    simpa [docChunks, chunkDocument, linesToDoc] using h
  exact ⟨h1, by rw [h1, joinLines_splitLines]⟩

theorem C1_witness :
    0 < 3 ∧
    (((docChunks 3 "ab\nc".toList).flatMap fun c => (splitLines c.text).drop 1) =
        splitLines "ab\nc".toList ∧
      joinLines ((docChunks 3 "ab\nc".toList).flatMap fun c => (splitLines c.text).drop 1) =
        "ab\nc".toList) :=
  ⟨by decide, C1_chunker_reconstructs_document "ab\nc".toList 3 (by decide)⟩

/-- Claim C2 counterexample: with budget `B = 10` and document
`"aaaa\naaaaa"`, whose two lines have lengths 4 and 5 (both within the
budget), the chunker emits a single chunk whose body has length 11 > 10 —
the separator newlines it inserts are counted in the body but not in the
overflow check, so a chunk body can exceed the budget even though no single
line does. -/
theorem C2_counterexample :
    docChunks 10 ("aaaa\naaaaa".toList) = [⟨"\naaaa\naaaaa".toList, true, true⟩] ∧
    ("\naaaa\naaaaa".toList).length = 11 ∧
    (∀ l ∈ splitLines ("aaaa\naaaaa".toList), l.length ≤ 10) := by
  decide

/-- Claim C2 as amended: every chunk body emitted by the Document Chunker
loop has length at most `B + 1` (the body carries one inserted separator
newline per line, and the overflow check ignores the final one), except when
a single original line's length alone exceeds `B`, in which case that line
forms a single oversized chunk by itself — the body is exactly that line
preceded by the separator newline — rather than being split or truncated. -/
theorem C2_chunk_size_bound (D : List Char) (B : Nat) (c : Chunk)
    (hc : c ∈ docChunks B D) :
    c.text.length ≤ B + 1 ∨
      ∃ l ∈ splitLines D, c.text = '\n' :: l ∧ B < l.length :=
  chunkLoop_length_bound B (splitLines D) (splitLines D) [] true
    (Or.inl (by simp)) (fun _ hl => hl) c hc

theorem C2_witness :
    (⟨'\n' :: "a".toList, true, true⟩ : Chunk).text.length ≤ 5 + 1 ∨
      ∃ l ∈ splitLines "a".toList,
        (⟨'\n' :: "a".toList, true, true⟩ : Chunk).text = '\n' :: l ∧ 5 < l.length :=
  C2_chunk_size_bound "a".toList 5 ⟨'\n' :: "a".toList, true, true⟩ (by decide)

/-- Claim C3: for every document processed by the Document Chunker in
`AttachFullRecord.publish`, exactly one emitted chunk is marked first and
exactly one is marked last; when exactly one chunk is emitted it carries both
marks, and no middle chunk carries either mark. -/
theorem C3_first_last_marks (D : List Char) (B : Nat) :
    (docChunks B D).countP (fun c => c.isFirst) = 1 ∧
    (docChunks B D).countP (fun c => c.isLast) = 1 ∧
    (∀ c, docChunks B D = [c] → c.isFirst = true ∧ c.isLast = true) ∧
    (∀ i (hi : i < (docChunks B D).length), 0 < i → i + 1 < (docChunks B D).length →
      ((docChunks B D).get ⟨i, hi⟩).isFirst = false ∧
        ((docChunks B D).get ⟨i, hi⟩).isLast = false) := by
  refine ⟨?_, ?_, ?_, ?_⟩
  · rw [countP_eq_count_true_map, docChunks_map_isFirst]
    simp [List.count_cons, List.count_replicate]
  · rw [countP_eq_count_true_map, docChunks_map_isLast]
    simp [List.count_append, List.count_cons, List.count_replicate]
  · intro c hc
    have h1 := docChunks_map_isFirst B D
    have h2 := docChunks_map_isLast B D
    rw [hc] at h1 h2
    simp at h1 h2
    exact ⟨h1, h2⟩
  · intro i hi hpos hmid
    constructor
    · rw [docChunks_get_isFirst B D i hi]
      simp
      omega
    · rw [docChunks_get_isLast B D i hi]
      simp
      omega

theorem C3_witness :
    (docChunks 10 "ab\ncd".toList).countP (fun c => c.isFirst) = 1 ∧
    (⟨'\n' :: "ab\ncd".toList, true, true⟩ : Chunk).isFirst = true := by
  refine ⟨(C3_first_last_marks "ab\ncd".toList 10).1, ?_⟩
  exact ((C3_first_last_marks "ab\ncd".toList 10).2.2.1 ⟨'\n' :: "ab\ncd".toList, true, true⟩
    (by decide)).1

/-- Claim C5: with budget `B = 10` and input lines
`["short", "a line that is too long for one chunk alone"]`, the chunker loop
emits exactly two chunks: chunk 1 has body `"\nshort"` and is marked first
(not last), and chunk 2 consists of the long line alone (preceded by its
separator newline), exceeds the budget, and is marked last (not first). -/
theorem C5_two_chunk_example :
    chunkDocument 10
        ["short".toList, "a line that is too long for one chunk alone".toList] =
      [⟨"\nshort".toList, true, false⟩,
       ⟨'\n' :: "a line that is too long for one chunk alone".toList, false, true⟩] ∧
    10 < ('\n' :: "a line that is too long for one chunk alone".toList).length := by
  decide

/-- Claim C4 counterexample: the empty document does not produce zero chunks
— `''.split('\n')` is `['']`, so the loop runs once and flushes a chunk whose
body is a single newline; likewise, for the empty raw record `{}` the
serialized document is `"{}"` and `AttachFullRecord.publish` appends exactly
one attachment to a publication that had none, not zero. -/
theorem C4_counterexample :
    (docChunks character_limit []).length = 1 ∧
    (AttachFullRecord.publish sampleAlert samplePubEmpty 1).1.attachmentCount = 1 ∧
    samplePubEmpty.attachmentCount = 0 := by
  decide

/-- Claim C4 as amended: an empty document produces exactly one chunk, whose
body is the single separator newline and which is marked both first and last;
and when the alert's raw record is the empty mapping `{}`,
`AttachFullRecord.publish` appends exactly one attachment (wrapping the
serialized document `"{}"`) beyond those already present. -/
theorem C4_amended :
    (∀ B : Nat, docChunks B [] = [⟨['\n'], true, true⟩]) ∧
    (AttachFullRecord.publish sampleAlert samplePubEmpty 1).1.attachmentCount = 1 ∧
    samplePubEmpty.attachmentCount = 0 := by
  refine ⟨fun B => ?_, by decide, by decide⟩
  rfl

/-- Claim C6: for every alert and every publication lacking the key
`_previous_publication` or lacking the key `slack.attachments`,
`AttachPublication.publish` returns its input publication unchanged — the
very same value, id included — with no attachment appended (and, being a
total function, no error raised). -/
theorem C6_attach_publication_noop (a : Alert) (p : Publication) (ctr : Nat)
    (h : p.fields.hasKey "_previous_publication" = false ∨
      p.fields.hasKey "slack.attachments" = false) :
    AttachPublication.publish a p ctr = (p, ctr) := by
  rw [AttachPublication.publish, if_pos h]

theorem C6_witness :
    AttachPublication.publish sampleAlert samplePubEmpty 7 = (samplePubEmpty, 7) :=
  C6_attach_publication_noop sampleAlert samplePubEmpty 7 (by decide)

/-- Claim C10 counterexample: a key present in the input publication is not
always absent from the result's top level — with an input publication that
already contains the key `slack.text`, the publication returned by
`Summary.publish` also contains `slack.text` at top level (with a fresh
value), so the claim's "any key present in the input publication is absent
from the result's top level" fails for the three reserved output keys. -/
theorem C10_counterexample :
    samplePubSlackText.fields.hasKey "slack.text" = true ∧
    (Summary.publish sampleAlert samplePubSlackText 1).1.fields.hasKey
      "slack.text" = true := by
  constructor
  · decide
  · rfl

/-- Claim C10 as amended: the publication returned by `Summary.publish`
contains exactly the keys `slack.text`, `slack.attachments` and
`_previous_publication`; any input key other than those three is absent from
the result's top level, and the entire input publication survives — as the
very same object — only nested under `_previous_publication`: Summary
replaces the accumulated publication rather than appending to it. -/
theorem C10_summary_replaces (a : Alert) (p : Publication) (ctr : Nat) :
    (∀ k : String, (Summary.publish a p ctr).1.fields.hasKey k = true ↔
      k ∈ ["slack.text", "slack.attachments", "_previous_publication"]) ∧
    (Summary.publish a p ctr).1.fields.lookup "_previous_publication" =
      some p.toValue := by
  constructor
  · intro k
    show ValueKVs.hasKey _ k = true ↔ _
    simp only [Summary.publish, ValueKVs.ofList, ValueKVs.hasKey]
    split_ifs with h1 h2 h3 <;> simp_all
    exact ⟨fun h => h1 h.symm, fun h => h2 h.symm, fun h => h3 h.symm⟩
  · rfl

/-- Claim C8 counterexample: the attachment appended by
`AttachRuleInfo.publish` carries only the keys `color` and `fields`, so the
recognized schema key `title` (among others) is absent from it — not every
attachment produced by the transformers carries every recognized key. -/
theorem C8_counterexample :
    ((AttachRuleInfo.publish sampleAlert samplePubEmpty 1).1.attachmentValues.map
      Value.topKeys) = [["color", "fields"]] ∧
    "title" ∈ recognizedKeys ∧
    "title" ∉ ["color", "fields"] := by
  decide

/-- Claim C8 as amended: only the Summary attachment carries every recognized
schema key (with empty-string or empty-sequence defaults for unset fields,
plus the extra keys `fallback`, `image_url` and `thumb_url`); the attachments
built by AttachRuleInfo, AttachPublication and AttachFullRecord each carry a
fixed proper subset of keys (AttachFullRecord using `author` rather than
`author_name`).  No attachment ever stores a null under any key it does
carry. -/
theorem C8_attachment_keys (a : Alert) (prev : Value) (doc : List Char)
    (isF isL : Bool) (ctr : Nat) :
    ((Summary.attachment a ctr).1.topKeys =
      ["fallback", "color", "author_name", "author_link", "author_icon",
       "title", "title_link", "text", "fields", "image_url", "thumb_url",
       "footer", "footer_icon", "ts", "mrkdwn_in"] ∧
     (∀ k ∈ recognizedKeys, k ∈ (Summary.attachment a ctr).1.topKeys) ∧
     (Summary.attachment a ctr).1.topValues.all (fun v => !v.isNull) = true) ∧
    ((AttachRuleInfo.attachment a ctr).1.topKeys = ["color", "fields"] ∧
     (AttachRuleInfo.attachment a ctr).1.topValues.all (fun v => !v.isNull) = true) ∧
    ((AttachPublication.attachment prev ctr).1.topKeys =
      ["color", "title", "text", "mrkdwn_in"] ∧
     (AttachPublication.attachment prev ctr).1.topValues.all
       (fun v => !v.isNull) = true) ∧
    ((AttachFullRecord.make_attachment a doc isF isL ctr).1.topKeys =
      ["color", "author", "title", "text", "fields", "footer", "footer_icon",
       "mrkdwn_in"] ∧
     (AttachFullRecord.make_attachment a doc isF isL ctr).1.topValues.all
       (fun v => !v.isNull) = true) := by
  refine ⟨⟨rfl, ?_, ?_⟩, ⟨rfl, ?_⟩, ⟨rfl, ?_⟩, ⟨rfl, ?_⟩⟩
  · have h : (Summary.attachment a ctr).1.topKeys =
        ["fallback", "color", "author_name", "author_link", "author_icon",
         "title", "title_link", "text", "fields", "image_url", "thumb_url",
         "footer", "footer_icon", "ts", "mrkdwn_in"] := rfl
    rw [h]
    decide
  · cases hc : a.created <;>
      simp [Summary.attachment, hc, Value.topValues, ValueKVs.values,
        ValueKVs.ofList, Value.isNull]
  · simp [AttachRuleInfo.attachment, Value.topValues, ValueKVs.values,
      ValueKVs.ofList, Value.isNull]
  · simp [AttachPublication.attachment, Value.topValues, ValueKVs.values,
      ValueKVs.ofList, Value.isNull]
  · cases isL <;>
      simp [AttachFullRecord.make_attachment, Value.topValues, ValueKVs.values,
        ValueKVs.ofList, Value.isNull]

theorem make_attachment_projections (a : Alert) (doc : List Char)
    (isF isL : Bool) (c : Nat) :
    valueLookupStr "author" (AttachFullRecord.make_attachment a doc isF isL c).1 =
      some (if isF then a.source_entity else []) ∧
    valueLookupStr "title" (AttachFullRecord.make_attachment a doc isF isL c).1 =
      some (if isF then "Record".toList else []) ∧
    valueLookupStr "footer" (AttachFullRecord.make_attachment a doc isF isL c).1 =
      some (if isL then AttachFullRecord.footerText a else []) ∧
    attFieldPairs (AttachFullRecord.make_attachment a doc isF isL c).1 =
      (if isL then [("Alert Id".toList, a.alert_id)] else []) := by
  cases isF <;> cases isL <;> exact ⟨rfl, rfl, rfl, rfl⟩

theorem attachmentsOfChunks_length (a : Alert) :
    ∀ (cs : List Chunk) (c : Nat),
      (AttachFullRecord.attachmentsOfChunks a cs c).1.length = cs.length
  | [], _ => rfl
  | ch :: rest, c => by
    show ((AttachFullRecord.attachmentsOfChunks a rest
        (AttachFullRecord.make_attachment a ch.text ch.isFirst ch.isLast c).2).1.length + 1) =
      rest.length + 1
    rw [attachmentsOfChunks_length a rest _]

theorem attachmentsOfChunks_get (a : Alert) :
    ∀ (cs : List Chunk) (c : Nat) (i : Nat)
      (hi : i < (AttachFullRecord.attachmentsOfChunks a cs c).1.length)
      (hic : i < cs.length),
      ∃ c', (AttachFullRecord.attachmentsOfChunks a cs c).1.get ⟨i, hi⟩ =
        (AttachFullRecord.make_attachment a (cs.get ⟨i, hic⟩).text
          (cs.get ⟨i, hic⟩).isFirst (cs.get ⟨i, hic⟩).isLast c').1
  | [], _, i, _, hic => absurd hic (by simp)
  | ch :: rest, c, 0, hi, hic => ⟨c, rfl⟩
  | ch :: rest, c, i + 1, hi, hic => by
    have hi' : i < (AttachFullRecord.attachmentsOfChunks a rest
        (AttachFullRecord.make_attachment a ch.text ch.isFirst ch.isLast c).2).1.length := by
      have := attachmentsOfChunks_length a rest
        (AttachFullRecord.make_attachment a ch.text ch.isFirst ch.isLast c).2
      rw [this]
      exact Nat.lt_of_succ_lt_succ hic
    obtain ⟨c', hc'⟩ := attachmentsOfChunks_get a rest
      (AttachFullRecord.make_attachment a ch.text ch.isFirst ch.isLast c).2 i hi'
      (Nat.lt_of_succ_lt_succ hic)
    exact ⟨c', hc'⟩

/-- Claim C9: among the attachments `AttachFullRecord.publish` generates,
first-chunk metadata (author = the alert's source entity, title `"Record"`)
appears only on the very first attachment, last-chunk metadata (the footer
and the trailing `Alert Id` field) appears only on the very last attachment,
and every middle attachment has empty author, empty title, empty footer and
an empty fields list. -/
theorem C9_first_last_metadata (a : Alert) (ctr : Nat) (i : Nat)
    (hi : i < (AttachFullRecord.newAttachments a ctr).length) :
    valueLookupStr "author" ((AttachFullRecord.newAttachments a ctr).get ⟨i, hi⟩) =
      some (if i = 0 then a.source_entity else []) ∧
    valueLookupStr "title" ((AttachFullRecord.newAttachments a ctr).get ⟨i, hi⟩) =
      some (if i = 0 then "Record".toList else []) ∧
    valueLookupStr "footer" ((AttachFullRecord.newAttachments a ctr).get ⟨i, hi⟩) =
      some (if i = (AttachFullRecord.newAttachments a ctr).length - 1
        then AttachFullRecord.footerText a else []) ∧
    attFieldPairs ((AttachFullRecord.newAttachments a ctr).get ⟨i, hi⟩) =
      (if i = (AttachFullRecord.newAttachments a ctr).length - 1
        then [("Alert Id".toList, a.alert_id)] else []) := by
  have hlen : (AttachFullRecord.newAttachments a ctr).length =
      (AttachFullRecord.chunks a).length :=
    attachmentsOfChunks_length a (AttachFullRecord.chunks a) ctr
  have hic : i < (AttachFullRecord.chunks a).length := hlen ▸ hi
  obtain ⟨c', hc'⟩ := attachmentsOfChunks_get a (AttachFullRecord.chunks a) ctr i hi hic
  have hF : ((AttachFullRecord.chunks a).get ⟨i, hic⟩).isFirst = decide (i = 0) :=
    docChunks_get_isFirst character_limit (AttachFullRecord.recordDocument a) i hic
  have hL : ((AttachFullRecord.chunks a).get ⟨i, hic⟩).isLast =
      decide (i = (AttachFullRecord.chunks a).length - 1) :=
    docChunks_get_isLast character_limit (AttachFullRecord.recordDocument a) i hic
  have hproj := make_attachment_projections a
    ((AttachFullRecord.chunks a).get ⟨i, hic⟩).text
    ((AttachFullRecord.chunks a).get ⟨i, hic⟩).isFirst
    ((AttachFullRecord.chunks a).get ⟨i, hic⟩).isLast c'
  have hc2 : (AttachFullRecord.newAttachments a ctr).get ⟨i, hi⟩ =
      (AttachFullRecord.make_attachment a ((AttachFullRecord.chunks a).get ⟨i, hic⟩).text
        ((AttachFullRecord.chunks a).get ⟨i, hic⟩).isFirst
        ((AttachFullRecord.chunks a).get ⟨i, hic⟩).isLast c').1 := hc'
  rw [hc2]
  simp only [hlen]
  rw [hF, hL] at hproj ⊢
  refine ⟨?_, ?_, ?_, ?_⟩
  · rw [hproj.1]
    by_cases h0 : i = 0 <;> simp [h0]
  · rw [hproj.2.1]
    by_cases h0 : i = 0 <;> simp [h0]
  · rw [hproj.2.2.1]
    by_cases hn : i = (AttachFullRecord.chunks a).length - 1 <;> simp [hn]
  · rw [hproj.2.2.2]
    by_cases hn : i = (AttachFullRecord.chunks a).length - 1 <;> simp [hn]

theorem C9_witness :
    valueLookupStr "author"
        ((AttachFullRecord.newAttachments sampleAlert 0).get ⟨0, by decide⟩) =
      some (if 0 = 0 then sampleAlert.source_entity else []) :=
  (C9_first_last_metadata sampleAlert 0 0 (by decide)).1

mutual
theorem valueDeepcopy_spec : ∀ (v : Value) (c : Nat),
    c ≤ (Value.deepcopy v c).2 ∧ ∀ i ∈ (Value.deepcopy v c).1.mutIds, c ≤ i
  | .vnull, c => ⟨Nat.le_refl c, by simp [Value.deepcopy, Value.mutIds]⟩
  | .vbool _, c => ⟨Nat.le_refl c, by simp [Value.deepcopy, Value.mutIds]⟩
  | .vint _, c => ⟨Nat.le_refl c, by simp [Value.deepcopy, Value.mutIds]⟩
  | .vstr _, c => ⟨Nat.le_refl c, by simp [Value.deepcopy, Value.mutIds]⟩
  | .vlist _ xs, c => by
    have h := valueListDeepcopy_spec xs (c + 1)
    refine ⟨Nat.le_trans (Nat.le_succ c) h.1, ?_⟩
    intro i hi
    simp only [Value.deepcopy, Value.mutIds, List.mem_cons] at hi
    rcases hi with rfl | hi
    · exact Nat.le_refl i
    · exact Nat.le_trans (Nat.le_succ c) (h.2 i hi)
  | .vdict _ kvs, c => by
    have h := valueKVsDeepcopy_spec kvs (c + 1)
    refine ⟨Nat.le_trans (Nat.le_succ c) h.1, ?_⟩
    intro i hi
    simp only [Value.deepcopy, Value.mutIds, List.mem_cons] at hi
    rcases hi with rfl | hi
    · exact Nat.le_refl i
    · exact Nat.le_trans (Nat.le_succ c) (h.2 i hi)

theorem valueListDeepcopy_spec : ∀ (xs : ValueList) (c : Nat),
    c ≤ (ValueList.deepcopy xs c).2 ∧ ∀ i ∈ (ValueList.deepcopy xs c).1.mutIds, c ≤ i
  | .nil, c => ⟨Nat.le_refl c, by simp [ValueList.deepcopy, ValueList.mutIds]⟩
  | .cons v rest, c => by
    have h1 := valueDeepcopy_spec v c
    have h2 := valueListDeepcopy_spec rest (Value.deepcopy v c).2
    refine ⟨Nat.le_trans h1.1 h2.1, ?_⟩
    intro i hi
    simp only [ValueList.deepcopy, ValueList.mutIds, List.mem_append] at hi
    rcases hi with hi | hi
    · exact h1.2 i hi
    · exact Nat.le_trans h1.1 (h2.2 i hi)

theorem valueKVsDeepcopy_spec : ∀ (kvs : ValueKVs) (c : Nat),
    c ≤ (ValueKVs.deepcopy kvs c).2 ∧ ∀ i ∈ (ValueKVs.deepcopy kvs c).1.mutIds, c ≤ i
  | .nil, c => ⟨Nat.le_refl c, by simp [ValueKVs.deepcopy, ValueKVs.mutIds]⟩
  | .cons _ v rest, c => by
    have h1 := valueDeepcopy_spec v c
    have h2 := valueKVsDeepcopy_spec rest (Value.deepcopy v c).2
    refine ⟨Nat.le_trans h1.1 h2.1, ?_⟩
    intro i hi
    simp only [ValueKVs.deepcopy, ValueKVs.mutIds, List.mem_append] at hi
    rcases hi with hi | hi
    · exact h1.2 i hi
    · exact Nat.le_trans h1.1 (h2.2 i hi)
end

theorem ValueKVs.mutIds_set : ∀ (kvs : ValueKVs) (k : String) (v : Value) (i : Nat),
    i ∈ (kvs.set k v).mutIds → i ∈ kvs.mutIds ∨ i ∈ v.mutIds
  | .nil, k, v, i => by
    simp [ValueKVs.set, ValueKVs.mutIds]
  | .cons k' v' rest, k, v, i => by
    intro hi
    rw [ValueKVs.set] at hi
    split at hi
    · simp only [ValueKVs.mutIds, List.mem_append] at hi ⊢
      tauto
    · simp only [ValueKVs.mutIds, List.mem_append] at hi ⊢
      rcases hi with hi | hi
      · tauto
      · rcases ValueKVs.mutIds_set rest k v i hi with h | h <;> tauto

theorem ValueKVs.mutIds_lookup : ∀ (kvs : ValueKVs) (k : String) (v : Value),
    kvs.lookup k = some v → ∀ i ∈ v.mutIds, i ∈ kvs.mutIds
  | .nil, k, v => by simp [ValueKVs.lookup]
  | .cons k' v' rest, k, v => by
    intro hl i hi
    rw [ValueKVs.lookup] at hl
    split at hl
    · cases hl
      simp only [ValueKVs.mutIds, List.mem_append]
      exact Or.inl hi
    · simp only [ValueKVs.mutIds, List.mem_append]
      exact Or.inr (ValueKVs.mutIds_lookup rest k v hl i hi)

theorem ValueList.mutIds_append : ∀ (xs ys : ValueList),
    (xs.append ys).mutIds = xs.mutIds ++ ys.mutIds
  | .nil, ys => by simp [ValueList.append, ValueList.mutIds]
  | .cons v rest, ys => by
    simp [ValueList.append, ValueList.mutIds, ValueList.mutIds_append rest ys]

theorem ValueList.mutIds_ofList : ∀ (l : List Value),
    (ValueList.ofList l).mutIds = l.flatMap Value.mutIds
  | [] => by simp [ValueList.ofList, ValueList.mutIds]
  | v :: rest => by
    simp [ValueList.ofList, ValueList.mutIds, ValueList.mutIds_ofList rest]

theorem pubDeepcopy_spec (p : Publication) (c : Nat) :
    c ≤ (p.deepcopy c).2 ∧ ∀ i ∈ (p.deepcopy c).1.mutIds, c ≤ i := by
  have h := valueKVsDeepcopy_spec p.fields (c + 1)
  refine ⟨Nat.le_trans (Nat.le_succ c) h.1, ?_⟩
  intro i hi
  simp only [Publication.deepcopy, Publication.mutIds, Publication.toValue,
    Value.mutIds, List.mem_cons] at hi
  rcases hi with rfl | hi
  · exact Nat.le_refl i
  · exact Nat.le_trans (Nat.le_succ c) (h.2 i hi)

theorem Publication.getOrInit_spec (p : Publication) (c : Nat) :
    c ≤ (p.getOrInitAttachments c).2 ∧
    ∀ i ∈ (p.getOrInitAttachments c).1.mutIds, i ∈ p.mutIds ∨ i = c := by
  rw [Publication.getOrInitAttachments]
  split
  · exact ⟨Nat.le_refl c, fun i hi => Or.inl hi⟩
  · refine ⟨Nat.le_succ c, ?_⟩
    intro i hi
    simp only [Publication.mutIds, Publication.toValue, Value.mutIds,
      List.mem_cons] at hi ⊢
    rcases hi with rfl | hi
    · exact Or.inl (Or.inl rfl)
    · rcases ValueKVs.mutIds_set p.fields "slack.attachments" (.vlist c .nil) i hi with h | h
      · exact Or.inl (Or.inr h)
      · simp only [Value.mutIds, ValueList.mutIds, List.mem_cons,
          List.not_mem_nil, or_false] at h
        exact Or.inr h

theorem Publication.appendAttachments_mutIds (p : Publication) (atts : List Value) :
    ∀ i ∈ (p.appendAttachments atts).mutIds,
      i ∈ p.mutIds ∨ i ∈ atts.flatMap Value.mutIds := by
  intro i hi
  rw [Publication.appendAttachments] at hi
  split at hi
  · rename_i j xs hlook
    simp only [Publication.mutIds, Publication.toValue, Value.mutIds,
      List.mem_cons] at hi ⊢
    rcases hi with rfl | hi
    · exact Or.inl (Or.inl rfl)
    · rcases ValueKVs.mutIds_set p.fields "slack.attachments"
        (.vlist j (xs.append (ValueList.ofList atts))) i hi with h | h
      · exact Or.inl (Or.inr h)
      · simp only [Value.mutIds, ValueList.mutIds_append, ValueList.mutIds_ofList,
          List.mem_cons, List.mem_append] at h
        rcases h with rfl | h | h
        · exact Or.inl (Or.inr (ValueKVs.mutIds_lookup p.fields "slack.attachments"
            (.vlist i xs) hlook i (by simp [Value.mutIds])))
        · exact Or.inl (Or.inr (ValueKVs.mutIds_lookup p.fields "slack.attachments"
            (.vlist j xs) hlook i (by simp [Value.mutIds, h])))
        · exact Or.inr h
  · exact Or.inl hi

theorem fieldAttachmentDicts_spec : ∀ (fs : List (List Char × List Char)) (c : Nat),
    c ≤ (fieldAttachmentDicts fs c).2 ∧
    ∀ i ∈ (fieldAttachmentDicts fs c).1.mutIds, c ≤ i
  | [], c => ⟨Nat.le_refl c, by simp [fieldAttachmentDicts, ValueList.mutIds]⟩
  | (k, v) :: rest, c => by
    have h := fieldAttachmentDicts_spec rest (c + 1)
    refine ⟨Nat.le_trans (Nat.le_succ c) h.1, ?_⟩
    intro i hi
    simp only [fieldAttachmentDicts, ValueList.mutIds, Value.mutIds,
      ValueKVs.mutIds, List.mem_append, List.mem_cons, List.not_mem_nil,
      List.append_nil, or_false] at hi
    rcases hi with rfl | hi
    · exact Nat.le_refl i
    · exact Nat.le_trans (Nat.le_succ c) (h.2 i hi)

theorem ruleInfoAttachment_spec (a : Alert) (c : Nat) :
    c ≤ (AttachRuleInfo.attachment a c).2 ∧
    ∀ i ∈ (AttachRuleInfo.attachment a c).1.mutIds, c ≤ i := by
  have h := fieldAttachmentDicts_spec a.presentationFields c
  constructor
  · show c ≤ (fieldAttachmentDicts a.presentationFields c).2 + 2
    omega
  · intro i hi
    simp only [AttachRuleInfo.attachment, Value.mutIds, ValueKVs.ofList,
      ValueKVs.mutIds, List.mem_cons, List.mem_append, List.not_mem_nil,
      List.append_nil, or_false] at hi
    rcases hi with rfl | hf | rfl | hi
    · omega
    · exact hf.elim
    · omega
    · exact h.2 i hi

theorem attachPubAttachment_spec (prev : Value) (c : Nat) :
    c ≤ (AttachPublication.attachment prev c).2 ∧
    ∀ i ∈ (AttachPublication.attachment prev c).1.mutIds, c ≤ i := by
  refine ⟨Nat.le_add_right c 2, ?_⟩
  have hm : (AttachPublication.attachment prev c).1.mutIds = [c + 1, c] := by
    simp [AttachPublication.attachment, Value.mutIds, ValueKVs.ofList,
      ValueKVs.mutIds, ValueList.mutIds]
  intro i hi
  rw [hm] at hi
  rcases List.mem_cons.mp hi with rfl | hi
  · omega
  · rcases List.mem_singleton.mp hi with rfl
    omega

theorem make_attachment_spec (a : Alert) (doc : List Char) (isF isL : Bool) (c : Nat) :
    c ≤ (AttachFullRecord.make_attachment a doc isF isL c).2 ∧
    ∀ i ∈ (AttachFullRecord.make_attachment a doc isF isL c).1.mutIds, c ≤ i := by
  cases isL
  · refine ⟨by simp [AttachFullRecord.make_attachment]; omega, ?_⟩
    have hm : (AttachFullRecord.make_attachment a doc isF false c).1.mutIds =
        [c + 2, c, c + 1] := by
      simp [AttachFullRecord.make_attachment, Value.mutIds, ValueKVs.ofList,
        ValueKVs.mutIds, ValueList.mutIds]
    intro i hi
    rw [hm] at hi
    simp only [List.mem_cons, List.not_mem_nil, or_false] at hi
    rcases hi with rfl | rfl | rfl <;> omega
  · refine ⟨by simp [AttachFullRecord.make_attachment]; omega, ?_⟩
    have hm : (AttachFullRecord.make_attachment a doc isF true c).1.mutIds =
        [c + 3, c + 1, c, c + 2] := by
      simp [AttachFullRecord.make_attachment, Value.mutIds, ValueKVs.ofList,
        ValueKVs.mutIds, ValueList.mutIds]
    intro i hi
    rw [hm] at hi
    simp only [List.mem_cons, List.not_mem_nil, or_false] at hi
    rcases hi with rfl | rfl | rfl | rfl <;> omega

theorem attachmentsOfChunks_spec (a : Alert) :
    ∀ (cs : List Chunk) (c : Nat),
      c ≤ (AttachFullRecord.attachmentsOfChunks a cs c).2 ∧
      ∀ i ∈ (AttachFullRecord.attachmentsOfChunks a cs c).1.flatMap Value.mutIds,
        c ≤ i
  | [], c => ⟨Nat.le_refl c, by simp [AttachFullRecord.attachmentsOfChunks]⟩
  | ch :: rest, c => by
    have h1 := make_attachment_spec a ch.text ch.isFirst ch.isLast c
    have h2 := attachmentsOfChunks_spec a rest
      (AttachFullRecord.make_attachment a ch.text ch.isFirst ch.isLast c).2
    refine ⟨Nat.le_trans h1.1 h2.1, ?_⟩
    intro i hi
    simp only [AttachFullRecord.attachmentsOfChunks, List.flatMap_cons,
      List.mem_append] at hi
    rcases hi with hi | hi
    · exact h1.2 i hi
    · exact Nat.le_trans h1.1 (h2.2 i hi)

theorem ruleInfoPublish_fresh (a : Alert) (p : Publication) (ctr : Nat) :
    ∀ i ∈ (AttachRuleInfo.publish a p ctr).1.mutIds, ctr ≤ i := by
  intro i hi
  have hdc := pubDeepcopy_spec p ctr
  have hgi := Publication.getOrInit_spec (Publication.deepcopy p ctr).1
    (Publication.deepcopy p ctr).2
  have hat := ruleInfoAttachment_spec a
    ((Publication.deepcopy p ctr).1.getOrInitAttachments (Publication.deepcopy p ctr).2).2
  have happ := Publication.appendAttachments_mutIds
    ((Publication.deepcopy p ctr).1.getOrInitAttachments (Publication.deepcopy p ctr).2).1
    [(AttachRuleInfo.attachment a
      ((Publication.deepcopy p ctr).1.getOrInitAttachments
        (Publication.deepcopy p ctr).2).2).1] i hi
  rcases happ with h | h
  · rcases hgi.2 i h with h' | rfl
    · exact hdc.2 i h'
    · exact hdc.1
  · simp only [List.flatMap_cons, List.flatMap_nil, List.append_nil] at h
    have := hat.2 i h
    have := hgi.1
    have := hdc.1
    omega

theorem fullRecordPublish_fresh (a : Alert) (p : Publication) (ctr : Nat) :
    ∀ i ∈ (AttachFullRecord.publish a p ctr).1.mutIds, ctr ≤ i := by
  intro i hi
  have hdc := pubDeepcopy_spec p ctr
  have hgi := Publication.getOrInit_spec (Publication.deepcopy p ctr).1
    (Publication.deepcopy p ctr).2
  have hna := attachmentsOfChunks_spec a (AttachFullRecord.chunks a)
    ((Publication.deepcopy p ctr).1.getOrInitAttachments (Publication.deepcopy p ctr).2).2
  have happ := Publication.appendAttachments_mutIds
    ((Publication.deepcopy p ctr).1.getOrInitAttachments (Publication.deepcopy p ctr).2).1
    (AttachFullRecord.attachmentsOfChunks a (AttachFullRecord.chunks a)
      ((Publication.deepcopy p ctr).1.getOrInitAttachments
        (Publication.deepcopy p ctr).2).2).1 i hi
  rcases happ with h | h
  · rcases hgi.2 i h with h' | rfl
    · exact hdc.2 i h'
    · exact hdc.1
  · have := hna.2 i h
    have := hgi.1
    have := hdc.1
    omega

theorem attachPubPublish_fresh (a : Alert) (p : Publication) (ctr : Nat)
    (h1 : p.fields.hasKey "_previous_publication" = true)
    (h2 : p.fields.hasKey "slack.attachments" = true) :
    ∀ i ∈ (AttachPublication.publish a p ctr).1.mutIds, ctr ≤ i := by
  intro i hi
  rw [AttachPublication.publish, if_neg (by simp [h1, h2])] at hi
  have hdc := pubDeepcopy_spec p ctr
  have hat := attachPubAttachment_spec
    ((p.fields.lookup "_previous_publication").getD .vnull) (Publication.deepcopy p ctr).2
  have happ := Publication.appendAttachments_mutIds (Publication.deepcopy p ctr).1
    [(AttachPublication.attachment ((p.fields.lookup "_previous_publication").getD .vnull)
      (Publication.deepcopy p ctr).2).1] i hi
  rcases happ with h | h
  · exact hdc.2 i h
  · simp only [List.flatMap_cons, List.flatMap_nil, List.append_nil] at h
    have := hat.2 i h
    have := hdc.1
    omega

/-- Claim C7 counterexample: `Summary.publish` places the input publication
itself — the same dict object, id included — under `_previous_publication`,
so its result shares a mutable substructure with the input (a later in-place
write through one is observable through the other); likewise
`AttachPublication.publish` in its no-op branch returns the input object
itself.  Here the input dict has object id 0, and id 0 is reachable from both
results. -/
theorem C7_counterexample :
    0 ∈ samplePubEmpty.mutIds ∧
    0 ∈ (Summary.publish sampleAlert samplePubEmpty 1).1.mutIds ∧
    0 ∈ (AttachPublication.publish sampleAlert samplePubEmpty 1).1.mutIds := by
  decide

/-- Claim C7 as amended: every transformer is a pure function of its input
(the input value itself is never modified), and `AttachRuleInfo.publish` and
`AttachFullRecord.publish` always — and `AttachPublication.publish` outside
its no-op branch — return publications sharing no mutable object (no list or
dict id) with the input publication, thanks to `deepcopy`; `Summary.publish`
however is not structurally independent: its result embeds the input
publication itself (the same object) under `_previous_publication`. -/
theorem C7_structural_independence (a : Alert) (p : Publication) (ctr : Nat)
    (h : ∀ i ∈ p.mutIds, i < ctr) :
    (∀ i ∈ (AttachRuleInfo.publish a p ctr).1.mutIds, i ∉ p.mutIds) ∧
    (∀ i ∈ (AttachFullRecord.publish a p ctr).1.mutIds, i ∉ p.mutIds) ∧
    (p.fields.hasKey "_previous_publication" = true →
      p.fields.hasKey "slack.attachments" = true →
      ∀ i ∈ (AttachPublication.publish a p ctr).1.mutIds, i ∉ p.mutIds) ∧
    (Summary.publish a p ctr).1.fields.lookup "_previous_publication" =
      some p.toValue := by
  refine ⟨?_, ?_, ?_, rfl⟩
  · intro i hi hip
    have := ruleInfoPublish_fresh a p ctr i hi
    have := h i hip
    omega
  · intro i hi hip
    have := fullRecordPublish_fresh a p ctr i hi
    have := h i hip
    omega
  · intro h1 h2 i hi hip
    have := attachPubPublish_fresh a p ctr h1 h2 i hi
    have := h i hip
    omega

theorem C7_witness :
    (2 : Nat) ∉ samplePubBoth.mutIds ∧
    (Summary.publish sampleAlert samplePubBoth 2).1.fields.lookup
      "_previous_publication" = some samplePubBoth.toValue :=
  ⟨(C7_structural_independence sampleAlert samplePubBoth 2 (by decide)).1 2 (by decide),
   (C7_structural_independence sampleAlert samplePubBoth 2 (by decide)).2.2.2⟩
